import Mathlib

/-!
Verification of the `rust-cid` crate (datalove-app/rust-cid).

The development shallowly embeds `src/lib.rs` (the `Cid` type, its
constructors, the binary and text codecs, and the `Hash` projection).
The crate's collaborators that are not part of the repository's sources
(`multihash`, `multibase`/base58btc, `integer_encoding` varints) and the
repository modules that are declared but whose files are absent from the
sources (`version.rs`, `codec.rs`, `error.rs`, and the `Prefix` type used
by the tests) are modelled from the specification, as noted on each
definition.

Bytes are modelled as `Nat` values `< 256`, text as `List Char`, and
fallible Rust functions as `Except Error` / `Option` computations.
-/

/-! ## Unsigned LEB128 varints

Modelled from the spec: the `integer_encoding` collaborator
(`write_varint` / `read_varint`), the "variable-length integer encoding
used for compact tag fields".  Low 7-bit groups come first; every byte
except the last has the continuation bit `0x80` set. -/

/-- Fueled varint encoder; `fuel` bounds the recursion depth. -/
def varintEncAux (fuel : Nat) (n : Nat) : List Nat :=
  match fuel with
  | 0 => []
  | fuel + 1 => if n < 128 then [n] else (n % 128 + 128) :: varintEncAux fuel (n / 128)

/-- Unsigned LEB128 encoding of `n` (`write_varint`). -/
def varintEnc (n : Nat) : List Nat :=
  varintEncAux (n + 1) n

/-- Unsigned LEB128 decoder (`read_varint`); returns the decoded value and
the bytes remaining after the varint, or `none` on a truncated varint. -/
def varintDec : List Nat → Option (Nat × List Nat)
  | [] => none
  | b :: rest =>
    if b < 128 then some (b, rest)
    else
      match varintDec rest with
      | some (v, r) => some (b - 128 + 128 * v, r)
      | none => none

theorem varintEncAux_dec (rest : List Nat) :
    ∀ fuel n, n < fuel → varintDec (varintEncAux fuel n ++ rest) = some (n, rest) := by
  intro fuel
  induction fuel with
  | zero => intro n h; omega
  | succ fuel ih =>
    intro n h
    by_cases hn : n < 128
    · simp [varintEncAux, hn, varintDec]
    · have hdiv : n / 128 < fuel := by
        have h1 : n / 128 < n := Nat.div_lt_self (by omega) (by omega)
        have h2 : 0 < n / 128 := Nat.div_pos (by omega) (by omega)
        omega
      simp only [varintEncAux, hn, if_false, List.cons_append]
      have hb : ¬ (n % 128 + 128 < 128) := by omega
      simp only [varintDec, hb, if_false, ih (n / 128) hdiv]
      have : n % 128 + 128 - 128 + 128 * (n / 128) = n := by omega
      rw [this]

/-- Decoding a varint encoding followed by any suffix returns the encoded
value and the suffix unchanged. -/
theorem varintDec_enc (n : Nat) (rest : List Nat) :
    varintDec (varintEnc n ++ rest) = some (n, rest) :=
  varintEncAux_dec rest (n + 1) n (Nat.lt_succ_self n)

theorem varintEncAux_lt_256 :
    ∀ fuel n, ∀ b ∈ varintEncAux fuel n, b < 256 := by
  intro fuel
  induction fuel with
  | zero => intro n b hb; simp [varintEncAux] at hb
  | succ fuel ih =>
    intro n b hb
    by_cases hn : n < 128
    · simp [varintEncAux, hn] at hb; omega
    · simp only [varintEncAux, hn, if_false, List.mem_cons] at hb
      rcases hb with hb | hb
      · omega
      · exact ih _ _ hb

/-- Varint bytes are bytes (each `< 256`). -/
theorem varintEnc_lt_256 (n : Nat) : ∀ b ∈ varintEnc n, b < 256 :=
  varintEncAux_lt_256 (n + 1) n

theorem varintEncAux_ne_nil (fuel n : Nat) (h : n < fuel) :
    varintEncAux fuel n ≠ [] := by
  cases fuel with
  | zero => omega
  | succ fuel =>
    by_cases hn : n < 128 <;> simp [varintEncAux, hn]

theorem varintEnc_ne_nil (n : Nat) : varintEnc n ≠ [] :=
  varintEncAux_ne_nil (n + 1) n (Nat.lt_succ_self n)

/-- The varint encoding of a value `< 128` is the single byte itself. -/
theorem varintEnc_small (n : Nat) (h : n < 128) : varintEnc n = [n] := by
  simp [varintEnc, varintEncAux, h]

/-! ## Base-`b` digit strings

Fueled, structurally recursive base conversion, related to Mathlib's
`Nat.digits` (little-endian digits, most significant digit last). -/

/-- Little-endian base-`b` digits of `n`, computed with explicit fuel so
that the definition is structurally recursive and kernel-evaluable. -/
def natToDigitsAux (b : Nat) : Nat → Nat → List Nat
  | 0, _ => []
  | fuel + 1, n => if n = 0 then [] else n % b :: natToDigitsAux b fuel (n / b)

theorem natToDigitsAux_eq_digits (b : Nat) (hb : 2 ≤ b) :
    ∀ fuel n, n < b ^ fuel → natToDigitsAux b fuel n = Nat.digits b n := by
  intro fuel
  induction fuel with
  | zero =>
    intro n h
    simp only [pow_zero, Nat.lt_one_iff] at h
    subst h
    simp [natToDigitsAux]
  | succ fuel ih =>
    intro n h
    by_cases hn : n = 0
    · subst hn; simp [natToDigitsAux]
    · have hdiv : n / b < b ^ fuel := by
        rw [Nat.div_lt_iff_lt_mul (by omega)]
        calc n < b ^ (fuel + 1) := h
        _ = b ^ fuel * b := by ring
      rw [natToDigitsAux, if_neg hn, ih (n / b) hdiv,
        Nat.digits_def' (by omega : 1 < b) (Nat.pos_of_ne_zero hn)]

/-! ## The base58btc alphabet and codec

Modelled from the spec: the text-encoding collaborator (`multibase`),
restricted to the one mode the crate consumes, `Base::Base58btc` with
multibase selector character `z`. -/

/-- The base58btc alphabet, in digit-value order. -/
def b58Alphabet : List Char :=
  ['1', '2', '3', '4', '5', '6', '7', '8', '9',
   'A', 'B', 'C', 'D', 'E', 'F', 'G', 'H', 'J', 'K', 'L', 'M', 'N', 'P',
   'Q', 'R', 'S', 'T', 'U', 'V', 'W', 'X', 'Y', 'Z',
   'a', 'b', 'c', 'd', 'e', 'f', 'g', 'h', 'i', 'j', 'k', 'm', 'n', 'o',
   'p', 'q', 'r', 's', 't', 'u', 'v', 'w', 'x', 'y', 'z']

/-- Digit value to base58 character. -/
def b58Char (d : Nat) : Char :=
  b58Alphabet.getD d '1'

/-- Base58 character to digit value; `none` on a character outside the
alphabet. -/
def b58Val (c : Char) : Option Nat :=
  b58Alphabet.indexOf? c

/-- Big-endian numeric value of a byte string. -/
def bytesToNat (bs : List Nat) : Nat :=
  Nat.ofDigits 256 bs.reverse

/-- Base58btc encoding of a byte string: one `1` per leading zero byte,
then the big-endian base-58 digits of the value. -/
def base58Encode (bs : List Nat) : List Char :=
  let zeros := (bs.takeWhile (· = 0)).length
  let n := bytesToNat bs
  List.replicate zeros '1' ++ ((natToDigitsAux 58 (2 * bs.length + 2) n).reverse.map b58Char)

/-- Base58btc decoding of a character string: one zero byte per leading
`1`, then the big-endian bytes of the base-58 value; `none` if any
character is outside the alphabet. -/
def base58Decode (cs : List Char) : Option (List Nat) :=
  match cs.mapM b58Val with
  | none => none
  | some ds =>
    let zeros := (ds.takeWhile (· = 0)).length
    let n := Nat.ofDigits 58 ds.reverse
    some (List.replicate zeros 0 ++ (natToDigitsAux 256 cs.length n).reverse)

theorem b58Val_b58Char : ∀ d < 58, b58Val (b58Char d) = some d := by decide

theorem b58Char_mem (d : Nat) : b58Char d ∈ b58Alphabet := by
  by_cases h : d < b58Alphabet.length
  · rw [b58Char, List.getD_eq_getElem _ _ h]
    exact List.getElem_mem h
  · rw [b58Char, List.getD_eq_default _ _ (by omega)]
    decide

theorem optionMapM_append {α β : Type} (f : α → Option β) :
    ∀ (l1 : List α) (l2 : List α) (r1 r2 : List β),
      l1.mapM f = some r1 → l2.mapM f = some r2 → (l1 ++ l2).mapM f = some (r1 ++ r2) := by
  intro l1
  induction l1 with
  | nil =>
    intro l2 r1 r2 h1 h2
    simp only [List.mapM_nil, pure, Option.some.injEq] at h1
    subst h1
    simpa using h2
  | cons a l ih =>
    intro l2 r1 r2 h1 h2
    simp only [List.mapM_cons, bind, Option.bind] at h1 ⊢
    cases hfa : f a with
    | none => rw [hfa] at h1; exact absurd h1 (by simp)
    | some b =>
      rw [hfa] at h1
      cases hl : l.mapM f with
      | none => rw [hl] at h1; exact absurd h1 (by simp)
      | some r =>
        rw [hl] at h1
        simp only [pure, Option.some.injEq] at h1
        subst h1
        rw [List.cons_append, List.mapM_cons]
        simp only [bind, Option.bind, hfa, ih l2 r r2 hl h2, pure]
        rfl

theorem mapM_b58_replicate (z : Nat) :
    (List.replicate z '1').mapM b58Val = some (List.replicate z 0) := by
  induction z with
  | zero => rfl
  | succ z ih =>
    rw [List.replicate_succ, List.mapM_cons]
    have h1 : b58Val '1' = some 0 := by decide
    simp only [h1, bind, Option.bind, ih, pure, List.replicate_succ]

theorem mapM_b58_map (l : List Nat) (h : ∀ d ∈ l, d < 58) :
    (l.map b58Char).mapM b58Val = some l := by
  induction l with
  | nil => rfl
  | cons a l ih =>
    rw [List.map_cons, List.mapM_cons]
    have ha : b58Val (b58Char a) = some a := b58Val_b58Char a (h a (by simp))
    have hl : (l.map b58Char).mapM b58Val = some l := ih (fun d hd => h d (by simp [hd]))
    simp only [ha, bind, Option.bind, hl, pure]

theorem ofDigits_replicate_zero (b z : Nat) :
    Nat.ofDigits b (List.replicate z 0) = 0 := by
  induction z with
  | zero => rfl
  | succ z ih => rw [List.replicate_succ, Nat.ofDigits_cons, ih]; ring

theorem takeWhile_zeros_length (z : Nat) (l : List Nat)
    (hl : ∀ h : l ≠ [], l.head h ≠ 0) :
    ((List.replicate z 0 ++ l).takeWhile (· = 0)).length = z := by
  induction z with
  | zero =>
    cases l with
    | nil => simp
    | cons a t =>
      have ha : a ≠ 0 := hl (by simp)
      simp [List.takeWhile_cons, ha]
  | succ z ih =>
    have hr : List.replicate (z + 1) 0 ++ l = 0 :: (List.replicate z 0 ++ l) := by
      rw [List.replicate_succ, List.cons_append]
    rw [hr, List.takeWhile_cons, if_pos (by simp), List.length_cons, ih]

/-- Base58btc decoding is a left inverse of encoding on byte strings. -/
theorem base58_roundtrip (bs : List Nat) (hbs : ∀ b ∈ bs, b < 256) :
    base58Decode (base58Encode bs) = some bs := by
  classical
  set t := bs.takeWhile (· = 0) with ht_def
  set d := bs.dropWhile (· = 0) with hd_def
  have hsplit : t ++ d = bs := List.takeWhile_append_dropWhile _ _
  set z := t.length with hz_def
  have ht : t = List.replicate z 0 := by
    rw [hz_def]
    exact List.eq_replicate_of_mem (fun b hb => by
      have := List.mem_takeWhile_imp hb
      simpa using this)
  have hd_head : ∀ x, d.head? = some x → x ≠ 0 := by
    intro x hx
    have := List.head?_dropWhile_not (fun y : Nat => decide (y = 0)) bs
    rw [← hd_def] at this
    rw [hx] at this
    simpa using this
  have hd_lt : ∀ b ∈ d, b < 256 := by
    intro b hb
    exact hbs b (hsplit ▸ List.mem_append_right t hb)
  -- the numeric value ignores the leading zero bytes
  have hn_eq : bytesToNat bs = Nat.ofDigits 256 d.reverse := by
    rw [bytesToNat, ← hsplit, List.reverse_append, Nat.ofDigits_append, ht,
      List.reverse_replicate, ofDigits_replicate_zero]
    ring
  set n := bytesToNat bs with hn_def
  have hn_lt : n < 256 ^ bs.length := by
    have := Nat.ofDigits_lt_base_pow_length (b := 256) (l := bs.reverse)
      (by norm_num) (fun x hx => hbs x (List.mem_reverse.mp hx))
    simpa [bytesToNat] using this
  have hfuel : n < 58 ^ (2 * bs.length + 2) := by
    calc n < 256 ^ bs.length := hn_lt
    _ ≤ (58 ^ 2) ^ bs.length := Nat.pow_le_pow_left (by norm_num) _
    _ = 58 ^ (2 * bs.length) := by rw [← pow_mul]
    _ ≤ 58 ^ (2 * bs.length + 2) := Nat.pow_le_pow_right (by norm_num) (by omega)
  have hdigs : natToDigitsAux 58 (2 * bs.length + 2) n = Nat.digits 58 n :=
    natToDigitsAux_eq_digits 58 (by norm_num) _ n hfuel
  have henc : base58Encode bs =
      List.replicate z '1' ++ (Nat.digits 58 n).reverse.map b58Char := by
    rw [base58Encode]
    rw [← hdigs]
  rw [henc, base58Decode]
  -- decoding the characters back to digit values
  have hmap : ((Nat.digits 58 n).reverse.map b58Char).mapM b58Val =
      some (Nat.digits 58 n).reverse :=
    mapM_b58_map _ (fun x hx =>
      Nat.digits_lt_base (by norm_num) (List.mem_reverse.mp hx))
  have hmapM : (List.replicate z '1' ++ (Nat.digits 58 n).reverse.map b58Char).mapM b58Val
      = some (List.replicate z 0 ++ (Nat.digits 58 n).reverse) :=
    optionMapM_append _ _ _ _ _ (mapM_b58_replicate z) hmap
  rw [hmapM]
  simp only
  -- the leading-zero count of the decoded digit string
  have hzeros : ((List.replicate z 0 ++ (Nat.digits 58 n).reverse).takeWhile
      (· = 0)).length = z := by
    apply takeWhile_zeros_length
    intro hne
    rw [List.head_reverse]
    apply Nat.getLast_digit_ne_zero
    intro hn0
    rw [hn0] at hne
    simp at hne
  -- the digit string evaluates back to n
  have hvalue : Nat.ofDigits 58 (List.replicate z 0 ++ (Nat.digits 58 n).reverse).reverse
      = n := by
    rw [List.reverse_append, List.reverse_reverse, List.reverse_replicate,
      Nat.ofDigits_append, ofDigits_replicate_zero, Nat.ofDigits_digits]
    ring
  -- the byte reconstruction fuel is sufficient
  have hlen : (List.replicate z '1' ++ (Nat.digits 58 n).reverse.map b58Char).length
      = z + (Nat.digits 58 n).length := by simp
  have hn_small : n < 256 ^ (z + (Nat.digits 58 n).length) := by
    calc n < 58 ^ (Nat.digits 58 n).length := Nat.lt_base_pow_length_digits (by norm_num)
    _ ≤ 256 ^ (Nat.digits 58 n).length := Nat.pow_le_pow_left (by norm_num) _
    _ ≤ 256 ^ (z + (Nat.digits 58 n).length) := Nat.pow_le_pow_right (by norm_num) (by omega)
  have hbytes : natToDigitsAux 256
      (List.replicate z '1' ++ (Nat.digits 58 n).reverse.map b58Char).length n
      = Nat.digits 256 n := by
    rw [hlen]
    exact natToDigitsAux_eq_digits 256 (by norm_num) _ n hn_small
  -- the base-256 digits of n are exactly the non-zero-prefixed bytes
  have hd256 : Nat.digits 256 n = d.reverse := by
    rw [hn_eq]
    apply Nat.digits_ofDigits 256 (by norm_num)
    · intro x hx
      exact hd_lt x (List.mem_reverse.mp hx)
    · intro hne
      rw [List.getLast_reverse]
      have hd_ne : d ≠ [] := by
        intro h0
        rw [h0] at hne
        simp at hne
      intro hhead
      exact hd_head _ (by rw [List.head?_eq_head hd_ne, hhead]) rfl
  rw [hzeros, hvalue, hbytes, hd256, List.reverse_reverse, ← ht, hsplit]

theorem b58Alphabet_utf8Size : ∀ c ∈ b58Alphabet, c.utf8Size = 1 := by decide

theorem b58Alphabet_no_slash : ∀ c ∈ b58Alphabet, c ≠ '/' := by decide

theorem base58Encode_mem_alphabet (bs : List Nat) :
    ∀ c ∈ base58Encode bs, c ∈ b58Alphabet := by
  intro c hc
  rw [base58Encode, List.mem_append] at hc
  rcases hc with hc | hc
  · rw [List.eq_of_mem_replicate hc]; decide
  · rcases List.mem_map.mp hc with ⟨d, _, rfl⟩
    exact b58Char_mem d

/-! ## Multihash

Modelled from the spec: the hashing collaborator's self-describing digest
value (`multihash::Multihash`): "carries its own algorithm tag and length,
and exposes a byte-serializable form (algorithm-tag ‖ length ‖ raw-bytes)
and a byte-deserializable constructor that validates that form". -/

/-- A self-describing digest: the algorithm tag together with the raw
digest bytes. -/
structure Multihash where
  code : Nat
  digest : List Nat
deriving DecidableEq

/-- Modelled from the spec: the hashing collaborator's fixed algorithm
table, mapping each algorithm tag to its digest length (the `multihash`
crate's `Code` values). -/
def mhCodeSize (code : Nat) : Option Nat :=
  match code with
  | 0x11 => some 20   -- Sha1
  | 0x12 => some 32   -- Sha2-256
  | 0x13 => some 64   -- Sha2-512
  | 0x16 => some 32   -- Sha3-256
  | 0x1b => some 32   -- Keccak-256
  | 0x40 => some 64   -- Blake2b
  | _ => none

/-- The algorithm tag of Sha2-256, the fixed legacy digest algorithm
(`Code::Sha2_256`). -/
def sha2_256Code : Nat := 0x12

/-- The self-describing byte form: algorithm tag, length, raw bytes
(`Multihash::to_bytes` / `as_ref`). -/
def Multihash.toBytes (h : Multihash) : List Nat :=
  h.code :: h.digest.length :: h.digest

/-- A digest the hashing collaborator can produce: a known algorithm tag,
the digest length prescribed by the table, and raw bytes. -/
def Multihash.Valid (h : Multihash) : Prop :=
  mhCodeSize h.code = some h.digest.length ∧ ∀ b ∈ h.digest, b < 256

instance (h : Multihash) : Decidable h.Valid := by
  unfold Multihash.Valid; infer_instance

/-- Modelled from the spec: the hashing collaborator's validating
deserializer (`multihash::decode`): parses algorithm tag, length and raw
bytes, and fails unless the length field and the byte count match the
algorithm's prescribed digest length. -/
def mhDecode (bs : List Nat) : Option Multihash :=
  match bs with
  | code :: len :: rest =>
    match mhCodeSize code with
    | some size =>
      if len = size ∧ rest.length = size ∧ ∀ b ∈ rest, b < 256 then
        some ⟨code, rest⟩
      else none
    | none => none
  | _ => none

theorem mhDecode_toBytes (h : Multihash) (hv : h.Valid) :
    mhDecode h.toBytes = some h := by
  obtain ⟨hsize, hbytes⟩ := hv
  simp only [Multihash.toBytes, mhDecode, hsize]
  simp
  exact hbytes

theorem mhDecode_valid (bs : List Nat) (h : Multihash) (hd : mhDecode bs = some h) :
    h.Valid ∧ h.toBytes = bs := by
  match bs with
  | [] => simp [mhDecode] at hd
  | [_] => simp [mhDecode] at hd
  | code :: len :: rest =>
    simp only [mhDecode] at hd
    cases hsize : mhCodeSize code with
    | none => rw [hsize] at hd; simp at hd
    | some size =>
      rw [hsize] at hd
      have hd' : (if len = size ∧ rest.length = size ∧ ∀ b ∈ rest, b < 256 then
          some (Multihash.mk code rest) else none) = some h := hd
      by_cases hc : len = size ∧ rest.length = size ∧ ∀ b ∈ rest, b < 256
      · rw [if_pos hc] at hd'
        obtain ⟨h1, h2, h3⟩ := hc
        cases hd'
        refine ⟨⟨by rw [hsize, h2], h3⟩, ?_⟩
        simp [Multihash.toBytes, h2, h1]
      · rw [if_neg hc] at hd'; simp at hd'

/-! ## Version

Modelled from the spec (`version.rs` is declared in `lib.rs` but absent
from the sources): the closed two-value tag with byte- and string-level
sniffing. -/

/-- CID versions: `V0` (legacy) and `V1` (current). -/
inductive Version where
  | V0
  | V1
deriving DecidableEq

/-- Numeric projection of a version (`u64::from(Version)`). -/
def Version.toNumeric : Version → Nat
  | .V0 => 0
  | .V1 => 1

/-! ## Errors

Modelled from the spec (`error.rs` absent from the sources): the closed
error taxonomy, with the constructor names used by `lib.rs` and the
tests. -/

/-- The crate's error type. -/
inductive Error where
  | UnknownCodec
  | InputTooShort
  | ParsingError
  | InvalidCidVersion
  | InvalidCidV0Codec
  | InvalidCidV0Multihash
deriving DecidableEq

/-- Numeric-to-version conversion (`Version::from`): 0 and 1 are the only
versions. -/
def Version.fromNumeric (n : Nat) : Except Error Version :=
  match n with
  | 0 => .ok .V0
  | 1 => .ok .V1
  | _ => .error .InvalidCidVersion

/-- Byte-level legacy sniffing (`Version::is_v0_binary`), modelled from the
spec: legacy iff the byte sequence has the exact length of the legacy
digest's serialized form (34) and its leading two bytes are the legacy
digest's fixed algorithm-tag/length prefix (0x12, 0x20). -/
def Version.is_v0_binary (bs : List Nat) : Bool :=
  bs.length = 34 && bs.take 2 = [0x12, 0x20]

/-- Text-level legacy sniffing (`Version::is_v0_str`), modelled from the
spec: legacy iff the text is exactly 46 characters of base58 and begins
with the two fixed leading characters `Qm` (byte lengths, as in Rust's
`str::len`). -/
def Version.is_v0_str (cs : List Char) : Bool :=
  (cs.map Char.utf8Size).sum = 46 && cs.take 2 = ['Q', 'm']

/-! ## Codec

Modelled from the spec (`codec.rs` absent from the sources): a closed
enumeration drawn from the fixed, externally defined table of content-type
codes; a representative selection of the table is embedded, including the
two codecs named by the spec (`Raw`, `DagProtobuf`) and codecs whose
numeric codes need multi-byte varints. -/

/-- Content-type codecs. -/
inductive Codec where
  | Raw
  | DagProtobuf
  | DagCBOR
  | GitRaw
  | EthereumBlock
  | DagJSON
deriving DecidableEq

/-- Codec-to-numeric conversion (`u64::from(Codec)`); total. -/
def Codec.toNumeric : Codec → Nat
  | .Raw => 0x55
  | .DagProtobuf => 0x70
  | .DagCBOR => 0x71
  | .GitRaw => 0x78
  | .EthereumBlock => 0x90
  | .DagJSON => 0x0129

/-- Numeric-to-codec conversion (`Codec::from`); fails with the
"unknown codec" error on a number outside the table. -/
def Codec.fromNumeric (n : Nat) : Except Error Codec :=
  match n with
  | 0x55 => .ok .Raw
  | 0x70 => .ok .DagProtobuf
  | 0x71 => .ok .DagCBOR
  | 0x78 => .ok .GitRaw
  | 0x90 => .ok .EthereumBlock
  | 0x0129 => .ok .DagJSON
  | _ => .error .UnknownCodec

theorem Codec.fromNumeric_toNumeric (c : Codec) :
    Codec.fromNumeric c.toNumeric = .ok c := by
  cases c <;> rfl

/-! ## Multibase

Modelled from the spec: the text-encoding collaborator (`multibase`),
restricted to the one mode the crate consumes (`Base::Base58btc`, selector
character `z`); any other selector surfaces as a decoding failure. -/

/-- `multibase::encode(Base::Base58btc, bytes)`: the selector character
followed by the base58btc rendering. -/
def multibaseEncode (bs : List Nat) : List Char :=
  'z' :: base58Encode bs

/-- `multibase::decode`: dispatch on the selector character. -/
def multibaseDecode (cs : List Char) : Option (List Nat) :=
  match cs with
  | 'z' :: rest => base58Decode rest
  | _ => none

/-- Rust `str::len`: the UTF-8 byte length of a text. -/
def strLen (cs : List Char) : Nat :=
  (cs.map Char.utf8Size).sum

/-! ## The Cid type (`src/lib.rs`) -/

/-- Representation of a CID: version, codec and multihash digest. -/
structure Cid where
  version : Version
  codec : Codec
  hash : Multihash
deriving DecidableEq

/-- `Cid::new_v0`: a legacy CID; fails unless the digest algorithm is
Sha2-256. -/
def Cid.new_v0 (hash : Multihash) : Except Error Cid :=
  if hash.code ≠ sha2_256Code then .error .InvalidCidV0Multihash
  else .ok ⟨.V0, .DagProtobuf, hash⟩

/-- `Cid::new_v1`: a current-version CID; total. -/
def Cid.new_v1 (codec : Codec) (hash : Multihash) : Cid :=
  ⟨.V1, codec, hash⟩

/-- `Cid::new`: version-dispatching constructor. -/
def Cid.new (version : Version) (codec : Codec) (hash : Multihash) : Except Error Cid :=
  match version with
  | .V0 =>
    if codec ≠ .DagProtobuf then .error .InvalidCidV0Codec
    else Cid.new_v0 hash
  | .V1 => .ok (Cid.new_v1 codec hash)

/-- `Cid::to_bytes_v0`: the digest's self-describing byte form, with no
prefix. -/
def Cid.to_bytes_v0 (c : Cid) : List Nat :=
  c.hash.toBytes

/-- `Cid::to_bytes_v1`: varint version, varint codec, digest bytes. -/
def Cid.to_bytes_v1 (c : Cid) : List Nat :=
  varintEnc c.version.toNumeric ++ varintEnc c.codec.toNumeric ++ c.hash.toBytes

/-- `Cid::to_bytes`: version-dispatching binary encoding. -/
def Cid.toBytes (c : Cid) : List Nat :=
  match c.version with
  | .V0 => c.to_bytes_v0
  | .V1 => c.to_bytes_v1

/-- `Cid::to_string_v0`: base58btc of the digest bytes with the multibase
selector character dropped (`string.remove(0)`). -/
def Cid.to_string_v0 (c : Cid) : List Char :=
  (multibaseEncode c.hash.toBytes).drop 1

/-- `Cid::to_string_v1`: multibase base58btc of the binary encoding. -/
def Cid.to_string_v1 (c : Cid) : List Char :=
  multibaseEncode c.toBytes

/-- `Cid::to_string`: version-dispatching text encoding. -/
def Cid.toText (c : Cid) : List Char :=
  match c.version with
  | .V0 => c.to_string_v0
  | .V1 => c.to_string_v1

/-- `TryFrom<&[u8]> for Cid`: binary decoding. -/
def Cid.tryFromBytes (bs : List Nat) : Except Error Cid :=
  if Version.is_v0_binary bs then
    match mhDecode bs with
    | some hash => Cid.new_v0 hash
    | none => .error .ParsingError
  else
    match varintDec bs with
    | none => .error .ParsingError
    | some (rawVersion, rest1) =>
      match varintDec rest1 with
      | none => .error .ParsingError
      | some (rawCodec, rest2) =>
        match Version.fromNumeric rawVersion with
        | .error e => .error e
        | .ok version =>
          match Codec.fromNumeric rawCodec with
          | .error e => .error e
          | .ok codec =>
            match mhDecode rest2 with
            | some hash => Cid.new version codec hash
            | none => .error .ParsingError

/-- The literal `"/ipfs/"` delimiter. -/
def ipfsDelim : List Char := ['/', 'i', 'p', 'f', 's', '/']

/-- The portion of the text after the FIRST occurrence of `"/ipfs/"`
(`cid_str.find(IPFS_DELIMETER)`), or `none` when the delimiter does not
occur. -/
def afterFirstIpfs : List Char → Option (List Char)
  | [] => none
  | c :: cs =>
    if ipfsDelim.isPrefixOf (c :: cs) then some ((c :: cs).drop 6)
    else afterFirstIpfs cs

/-- The portion of the text after the LAST occurrence of `"/ipfs/"`.
This follows the spec's words ("everything before and including the last
/ipfs/ is discarded") for comparison against the implementation. -/
def afterLastIpfs : List Char → Option (List Char)
  | [] => none
  | c :: cs =>
    match afterLastIpfs cs with
    | some r => some r
    | none =>
      if ipfsDelim.isPrefixOf (c :: cs) then some ((c :: cs).drop 6)
      else none

/-- The text-decoding pipeline applied after path-prefix stripping: the
length check, legacy sniffing, multibase decoding and binary decoding of
`TryFrom<&str> for Cid`. -/
def Cid.parseStripped (hash : List Char) : Except Error Cid :=
  if strLen hash < 2 then .error .InputTooShort
  else
    match
      (if Version.is_v0_str hash then multibaseDecode ('z' :: hash)
       else multibaseDecode hash) with
    | some bytes => Cid.tryFromBytes bytes
    | none => .error .ParsingError

/-- The result of path-prefix stripping: the portion after the first
`"/ipfs/"` when the delimiter occurs, the whole text otherwise. -/
def strippedText (t : List Char) : List Char :=
  match afterFirstIpfs t with
  | some r => r
  | none => t

/-- `TryFrom<&str> for Cid`: strip everything up to and including the
first `"/ipfs/"`, then run the decoding pipeline. -/
def Cid.tryFromText (t : List Char) : Except Error Cid :=
  Cid.parseStripped (strippedText t)

/-- `impl Hash for Cid`: the projection feeds `state.write_u64` with the
8 bytes at offsets 1..9 of the digest's serialized form, read in the
platform's native byte order (modelled little-endian); the out-of-bounds
slice (a Rust panic) is modelled as `none`. -/
def Cid.hashProj (c : Cid) : Option Nat :=
  let cidBytes := c.hash.toBytes
  if 9 ≤ cidBytes.length then some (Nat.ofDigits 256 ((cidBytes.drop 1).take 8))
  else none

/-! ## Prefix

Modelled from the spec (§4.3; no `prefix.rs` is present in the sources,
only the tests exercise it): the descriptor {version, codec,
hash-algorithm, hash-length} used to derive identifiers from content. -/

/-- A CID prefix descriptor. -/
structure Prefix where
  version : Version
  codec : Codec
  mhType : Nat
  mhLen : Nat
deriving DecidableEq

/-- `Cid::prefix()`: project version, codec, digest algorithm and digest
length; total. -/
def Cid.toPrefix (c : Cid) : Prefix :=
  ⟨c.version, c.codec, c.hash.code, c.hash.digest.length⟩

/-- Modelled from the spec: `Cid::new_from_prefix(prefix, data)` computes
`digest = external-hash(prefix.hash-algorithm, data)` truncated to
`prefix.hash-length` per the hashing collaborator's contract and builds
the identifier from `(prefix.version, prefix.codec, digest)`; the
collaborator is passed as an explicit function. Total, as in the tests'
usage (`Cid::new_from_prefix(&prefix, data)` with no `unwrap`). -/
def Cid.newFromPrefix (hashFn : Nat → Nat → List Nat → Multihash)
    (p : Prefix) (content : List Nat) : Cid :=
  ⟨p.version, p.codec, hashFn p.mhType p.mhLen content⟩

/-- Validity of a CID value: its digest is one the hashing collaborator
can produce, and the construction invariant for the legacy version
(codec `DagProtobuf`, digest algorithm Sha2-256) holds. -/
def Cid.Valid (c : Cid) : Prop :=
  c.hash.Valid ∧ (c.version = .V0 → c.codec = .DagProtobuf ∧ c.hash.code = sha2_256Code)

instance (c : Cid) : Decidable c.Valid := by
  unfold Cid.Valid; infer_instance

/-! ## Binary round-trip -/

theorem mh_sha256_shape (h : Multihash) (hv : h.Valid) (hc : h.code = sha2_256Code) :
    h.toBytes = 0x12 :: 32 :: h.digest ∧ h.digest.length = 32 := by
  obtain ⟨hsize, _⟩ := hv
  rw [hc] at hsize
  have h32 : h.digest.length = 32 := by
    simpa [sha2_256Code, mhCodeSize] using hsize.symm
  constructor
  · rw [Multihash.toBytes, hc, h32]; rfl
  · exact h32

theorem is_v0_binary_of_sha256 (h : Multihash) (hv : h.Valid)
    (hc : h.code = sha2_256Code) : Version.is_v0_binary h.toBytes = true := by
  obtain ⟨hshape, hlen⟩ := mh_sha256_shape h hv hc
  rw [hshape, Version.is_v0_binary]
  simp [List.take, hlen]

theorem varintEnc_one : varintEnc 1 = [1] := rfl

theorem is_v0_binary_v1_false (rest : List Nat) :
    Version.is_v0_binary (1 :: rest) = false := by
  rw [Version.is_v0_binary]
  simp [List.take]

theorem new_v0_sha256 (h : Multihash) (hc : h.code = sha2_256Code) :
    Cid.new_v0 h = .ok ⟨.V0, .DagProtobuf, h⟩ := by
  rw [Cid.new_v0, if_neg (by simp [hc])]

/-- Decoding a current-version binary encoding recovers its parts. -/
theorem tryFromBytes_v1_encoding (codec : Codec) (h : Multihash) (hmh : h.Valid) :
    Cid.tryFromBytes (varintEnc 1 ++ (varintEnc codec.toNumeric ++ h.toBytes)) =
      .ok ⟨.V1, codec, h⟩ := by
  have hfalse : Version.is_v0_binary
      (varintEnc 1 ++ (varintEnc codec.toNumeric ++ h.toBytes)) = false := by
    rw [varintEnc_one]
    exact is_v0_binary_v1_false _
  rw [Cid.tryFromBytes, if_neg (by simp [hfalse]), varintDec_enc]
  simp only [varintDec_enc, mhDecode_toBytes h hmh, Version.fromNumeric,
    Codec.fromNumeric_toNumeric]
  rfl

/-- `Cid::try_from(cid.to_bytes()) == Ok(cid)` for every valid CID. -/
theorem cid_bytes_roundtrip (c : Cid) (hv : c.Valid) :
    Cid.tryFromBytes c.toBytes = .ok c := by
  obtain ⟨hmh, hv0⟩ := hv
  cases hver : c.version with
  | V0 =>
    obtain ⟨hcodec, hcode⟩ := hv0 hver
    have hbytes : c.toBytes = c.hash.toBytes := by
      rw [Cid.toBytes, hver]; rfl
    rw [hbytes, Cid.tryFromBytes, if_pos (is_v0_binary_of_sha256 c.hash hmh hcode),
      mhDecode_toBytes c.hash hmh]
    show Cid.new_v0 c.hash = Except.ok c
    rw [new_v0_sha256 c.hash hcode]
    cases c
    simp_all
  | V1 =>
    have hbytes : c.toBytes =
        varintEnc 1 ++ (varintEnc c.codec.toNumeric ++ c.hash.toBytes) := by
      rw [Cid.toBytes, hver, Cid.to_bytes_v1, hver, List.append_assoc]
      rfl
    rw [hbytes, tryFromBytes_v1_encoding c.codec c.hash hmh]
    cases c
    simp_all

/-! ## Text round-trip -/

theorem strLen_of_alphabet (cs : List Char) (h : ∀ c ∈ cs, c ∈ b58Alphabet) :
    strLen cs = cs.length := by
  induction cs with
  | nil => rfl
  | cons a t ih =>
    have ha : a.utf8Size = 1 := b58Alphabet_utf8Size a (h a (by simp))
    have ht : strLen t = t.length := ih (fun c hc => h c (by simp [hc]))
    simp [strLen, ha] at ht ⊢
    omega

theorem afterFirstIpfs_no_slash (t : List Char) (h : '/' ∉ t) :
    afterFirstIpfs t = none := by
  induction t with
  | nil => rfl
  | cons c cs ih =>
    have hc : c ≠ '/' := fun hc => h (by simp [hc])
    have hpre : ipfsDelim.isPrefixOf (c :: cs) = false := by
      simp [ipfsDelim, List.isPrefixOf]
      intro h'
      exact absurd h'.symm hc
    rw [afterFirstIpfs, hpre]
    simp only [Bool.false_eq_true, if_false]
    exact ih (fun hmem => h (by simp [hmem]))

theorem base58Encode_no_slash (bs : List Nat) : '/' ∉ base58Encode bs := by
  intro hmem
  exact b58Alphabet_no_slash '/' (base58Encode_mem_alphabet bs '/' hmem) rfl

/-- Dropping `k` little-endian digits divides by `b^k`. -/
theorem digits_drop (b : Nat) (hb : 1 < b) :
    ∀ (k n : Nat), (Nat.digits b n).drop k = Nat.digits b (n / b ^ k) := by
  intro k
  induction k with
  | zero => intro n; simp
  | succ k ih =>
    intro n
    by_cases hn : n = 0
    · subst hn; simp [Nat.zero_div]
    · rw [Nat.digits_def' hb (Nat.pos_of_ne_zero hn), List.drop_succ_cons, ih (n / b),
        Nat.div_div_eq_div_mul, ← pow_succ']

theorem v0_value_lower : 58 ^ 45 ≤ 4640 * 256 ^ 32 := by norm_num

theorem v0_value_upper : 4641 * 256 ^ 32 ≤ 58 ^ 46 := by norm_num

theorem v0_window_lower : 1378 * 58 ^ 44 ≤ 4640 * 256 ^ 32 := by norm_num

theorem v0_window_upper : 4641 * 256 ^ 32 ≤ 1379 * 58 ^ 44 := by norm_num

theorem mhCodeSize_bounds (code s : Nat) (h : mhCodeSize code = some s) :
    code < 256 ∧ s < 256 := by
  unfold mhCodeSize at h
  split at h <;> simp_all <;> omega

theorem mh_toBytes_lt_256 (h : Multihash) (hv : h.Valid) :
    ∀ b ∈ h.toBytes, b < 256 := by
  obtain ⟨hsize, hdig⟩ := hv
  obtain ⟨hcode, hlen⟩ := mhCodeSize_bounds _ _ hsize
  intro b hb
  rw [Multihash.toBytes] at hb
  rcases hb with _ | ⟨_, (_ | ⟨_, hmem⟩)⟩
  · exact hcode
  · exact hlen
  · exact hdig b hmem

/-- The text rendering of a valid legacy digest: 46 base58 characters
starting with `Qm`. -/
theorem v0_string_facts (h : Multihash) (hv : h.Valid) (hc : h.code = sha2_256Code) :
    (base58Encode h.toBytes).take 2 = ['Q', 'm'] ∧
      strLen (base58Encode h.toBytes) = 46 ∧
      (base58Encode h.toBytes).length = 46 := by
  obtain ⟨hshape, hlen⟩ := mh_sha256_shape h hv hc
  obtain ⟨hsize, hdig⟩ := hv
  -- value bounds
  have hrevlen : h.digest.reverse.length = 32 := by simp [hlen]
  have hR : Nat.ofDigits 256 h.digest.reverse < 256 ^ 32 := by
    have := Nat.ofDigits_lt_base_pow_length (b := 256) (l := h.digest.reverse)
      (by norm_num) (fun x hx => hdig x (List.mem_reverse.mp hx))
    rwa [hrevlen] at this
  have hn : bytesToNat h.toBytes = Nat.ofDigits 256 h.digest.reverse + 256 ^ 32 * 4640 := by
    rw [bytesToNat, hshape]
    have : ((0x12 : Nat) :: 32 :: h.digest).reverse = h.digest.reverse ++ [32, 0x12] := by
      simp
    rw [this, Nat.ofDigits_append, hrevlen]
    norm_num [Nat.ofDigits]
  set n := bytesToNat h.toBytes with hn_def
  have hlo : 4640 * 256 ^ 32 ≤ n := by rw [hn]; ring_nf; omega
  have hhi : n < 4641 * 256 ^ 32 := by rw [hn]; ring_nf; omega
  have hn0 : n ≠ 0 := by
    have := v0_value_lower
    omega
  -- digit count
  have hlog : Nat.log 58 n = 45 := by
    apply Nat.log_eq_of_pow_le_of_lt_pow
    · exact le_trans v0_value_lower hlo
    · exact lt_of_lt_of_le (lt_of_lt_of_le hhi v0_value_upper) (le_refl _)
  have hcount : (Nat.digits 58 n).length = 46 := by
    rw [Nat.digits_len 58 n (by norm_num) hn0, hlog]
  -- leading digit window
  have hdiv : n / 58 ^ 44 = 1378 := by
    apply Nat.div_eq_of_lt_le
    · exact le_trans v0_window_lower hlo
    · exact lt_of_lt_of_le hhi (by norm_num : 4641 * 256 ^ 32 ≤ (1378 + 1) * 58 ^ 44)
  have hdigits1378 : Nat.digits 58 1378 = [44, 23] := by
    have hstep : Nat.digits 58 1378 = 1378 % 58 :: Nat.digits 58 (1378 / 58) :=
      Nat.digits_def' (by norm_num) (by norm_num)
    rw [hstep, show (1378:Nat) % 58 = 44 by norm_num, show (1378:Nat) / 58 = 23 by norm_num,
      Nat.digits_of_lt 58 23 (by norm_num) (by norm_num)]
  have hdrop : (Nat.digits 58 n).drop 44 = [44, 23] := by
    rw [digits_drop 58 (by norm_num) 44 n, hdiv, hdigits1378]
  have hsplit2 : (Nat.digits 58 n).reverse =
      [23, 44] ++ ((Nat.digits 58 n).take 44).reverse := by
    conv_lhs => rw [← List.take_append_drop 44 (Nat.digits 58 n)]
    rw [List.reverse_append, hdrop]
    rfl
  -- the encoding has no leading-zero bytes and enough fuel
  have hzeros : (h.toBytes.takeWhile (· = 0)).length = 0 := by
    rw [hshape]
    simp [List.takeWhile_cons]
  have hfuel : n < 58 ^ (2 * h.toBytes.length + 2) := by
    have h46 : n < 58 ^ 46 := lt_of_lt_of_le hhi v0_value_upper
    have hlen' : h.toBytes.length = 34 := by rw [hshape]; simp [hlen]
    calc n < 58 ^ 46 := h46
    _ ≤ 58 ^ (2 * h.toBytes.length + 2) := by
        apply Nat.pow_le_pow_right (by norm_num)
        omega
  have henc : base58Encode h.toBytes = (Nat.digits 58 n).reverse.map b58Char := by
    rw [base58Encode]
    rw [hzeros, natToDigitsAux_eq_digits 58 (by norm_num) _ _ hfuel]
    simp
  have htake : (base58Encode h.toBytes).take 2 = ['Q', 'm'] := by
    rw [henc, hsplit2]
    rfl
  have hlen46 : (base58Encode h.toBytes).length = 46 := by
    rw [henc]
    simp [hcount]
  refine ⟨htake, ?_, hlen46⟩
  rw [strLen_of_alphabet _ (base58Encode_mem_alphabet _), hlen46]

theorem base58Encode_cons_ne_nil (b : Nat) (bs : List Nat) (hb : b ≠ 0)
    (hlt : ∀ x ∈ b :: bs, x < 256) : base58Encode (b :: bs) ≠ [] := by
  have hn0 : bytesToNat (b :: bs) ≠ 0 := by
    rw [bytesToNat, List.reverse_cons, Nat.ofDigits_append]
    have : Nat.ofDigits 256 [b] = b := by norm_num [Nat.ofDigits]
    rw [this]
    have hpow : 0 < (256:Nat) ^ bs.reverse.length := Nat.pos_pow_of_pos _ (by norm_num)
    intro hcontra
    have hb0 : b = 0 := by
      by_contra hb'
      have : 1 ≤ b := Nat.one_le_iff_ne_zero.mpr hb'
      nlinarith [Nat.zero_le (Nat.ofDigits 256 bs.reverse)]
    exact hb hb0
  have hfuel : bytesToNat (b :: bs) < 58 ^ (2 * (b :: bs).length + 2) := by
    have h1 : bytesToNat (b :: bs) < 256 ^ (b :: bs).length := by
      have := Nat.ofDigits_lt_base_pow_length (b := 256) (l := (b :: bs).reverse)
        (by norm_num) (fun x hx => hlt x (List.mem_reverse.mp hx))
      simpa [bytesToNat] using this
    calc bytesToNat (b :: bs) < 256 ^ (b :: bs).length := h1
    _ ≤ (58 ^ 2) ^ (b :: bs).length := Nat.pow_le_pow_left (by norm_num) _
    _ = 58 ^ (2 * (b :: bs).length) := by rw [← pow_mul]
    _ ≤ 58 ^ (2 * (b :: bs).length + 2) := Nat.pow_le_pow_right (by norm_num) (by omega)
  rw [base58Encode, natToDigitsAux_eq_digits 58 (by norm_num) _ _ hfuel]
  intro hcontra
  rcases List.append_eq_nil.mp hcontra with ⟨_, h2⟩
  have hdig_nil : Nat.digits 58 (bytesToNat (b :: bs)) = [] := by
    have := congrArg List.length h2
    simp only [List.length_map, List.length_reverse, List.length_nil] at this
    rwa [← List.length_eq_zero]
  have hzero : bytesToNat (b :: bs) = 0 := by
    by_contra h0
    exact (Nat.digits_ne_nil_iff_ne_zero.mpr h0) hdig_nil
  exact hn0 hzero

theorem toBytes_lt_256 (c : Cid) (hmh : c.hash.Valid) :
    ∀ b ∈ c.toBytes, b < 256 := by
  intro b hb
  rw [Cid.toBytes] at hb
  cases hver : c.version <;> rw [hver] at hb
  · exact mh_toBytes_lt_256 c.hash hmh b hb
  · rw [Cid.to_bytes_v1] at hb
    simp only [List.append_assoc, List.mem_append] at hb
    rcases hb with hb | hb | hb
    · exact varintEnc_lt_256 _ b hb
    · exact varintEnc_lt_256 _ b hb
    · exact mh_toBytes_lt_256 c.hash hmh b hb

/-- `Cid::try_from(cid.to_string()) == Ok(cid)` for every valid CID, plus
the 46-character legacy rendering. -/
theorem cid_text_roundtrip (c : Cid) (hv : c.Valid) :
    Cid.tryFromText c.toText = .ok c ∧ (c.version = .V0 → strLen c.toText = 46) := by
  obtain ⟨hmh, hv0⟩ := hv
  cases hver : c.version with
  | V0 =>
    obtain ⟨hcodec, hcode⟩ := hv0 hver
    have htext : c.toText = base58Encode c.hash.toBytes := by
      rw [Cid.toText, hver]
      rfl
    obtain ⟨htake, hstr, hlen⟩ := v0_string_facts c.hash hmh hcode
    have hstrip : afterFirstIpfs c.toText = none := by
      rw [htext]
      exact afterFirstIpfs_no_slash _ (base58Encode_no_slash _)
    have hv0str : Version.is_v0_str (base58Encode c.hash.toBytes) = true := by
      have h1 : ((base58Encode c.hash.toBytes).map Char.utf8Size).sum = 46 := hstr
      rw [Version.is_v0_str]
      simp [h1, htake]
    have hdecode : multibaseDecode ('z' :: base58Encode c.hash.toBytes) =
        some c.hash.toBytes := by
      rw [multibaseDecode]
      exact base58_roundtrip _ (mh_toBytes_lt_256 c.hash hmh)
    have hbytes : c.hash.toBytes = c.toBytes := by
      rw [Cid.toBytes, hver]; rfl
    constructor
    · rw [Cid.tryFromText, strippedText, hstrip]
      rw [htext, Cid.parseStripped, if_neg (by rw [hstr]; omega), if_pos hv0str,
        hdecode]
      rw [hbytes]
      exact cid_bytes_roundtrip c ⟨hmh, hv0⟩
    · intro _
      rw [htext, hstr]
  | V1 =>
    have htext : c.toText = 'z' :: base58Encode c.toBytes := by
      rw [Cid.toText, hver]
      rfl
    have hlt : ∀ b ∈ c.toBytes, b < 256 := toBytes_lt_256 c hmh
    have hshape : c.toBytes = 1 :: (varintEnc c.codec.toNumeric ++ c.hash.toBytes) := by
      rw [Cid.toBytes, hver, Cid.to_bytes_v1, hver]
      rfl
    have he_ne : base58Encode c.toBytes ≠ [] := by
      rw [hshape]
      exact base58Encode_cons_ne_nil 1 _ (by omega) (hshape ▸ hlt)
    have hstrip : afterFirstIpfs c.toText = none := by
      rw [htext]
      apply afterFirstIpfs_no_slash
      intro hmem
      rcases List.mem_cons.mp hmem with h | h
      · exact absurd h.symm (by decide)
      · exact base58Encode_no_slash _ h
    have halpha : ∀ ch ∈ base58Encode c.toBytes, ch ∈ b58Alphabet :=
      base58Encode_mem_alphabet _
    have hstrlen : strLen ('z' :: base58Encode c.toBytes) =
        1 + (base58Encode c.toBytes).length := by
      rw [strLen, List.map_cons, List.sum_cons,
        show ('z').utf8Size = 1 from rfl,
        show ((base58Encode c.toBytes).map Char.utf8Size).sum
          = strLen (base58Encode c.toBytes) from rfl,
        strLen_of_alphabet _ halpha]
    have hlen1 : 1 ≤ (base58Encode c.toBytes).length := by
      rcases hq : base58Encode c.toBytes with _ | ⟨a, t⟩
      · exact absurd hq he_ne
      · simp
    have hv0str : Version.is_v0_str ('z' :: base58Encode c.toBytes) = false := by
      rw [Version.is_v0_str]
      have : (('z' :: base58Encode c.toBytes).take 2 = ['Q', 'm']) = False := by
        cases base58Encode c.toBytes <;> simp [List.take_succ_cons]
      simp [this]
    have hdecode : multibaseDecode ('z' :: base58Encode c.toBytes) =
        some c.toBytes := by
      rw [multibaseDecode]
      exact base58_roundtrip _ hlt
    constructor
    · rw [Cid.tryFromText, strippedText, hstrip]
      rw [htext, Cid.parseStripped, if_neg (by rw [hstrlen]; omega), hv0str]
      simp only [Bool.false_eq_true, if_false]
      rw [hdecode]
      exact cid_bytes_roundtrip c ⟨hmh, hv0⟩
    · intro hcontra
      exact absurd hcontra (by decide)

/-! ## Error taxonomy facts -/

theorem strippedText_of_none (t : List Char) (h : afterFirstIpfs t = none) :
    strippedText t = t := by
  rw [strippedText, h]

theorem strippedText_of_some (t r : List Char) (h : afterFirstIpfs t = some r) :
    strippedText t = r := by
  rw [strippedText, h]

theorem version_fromNumeric_error (n : Nat) (e : Error)
    (h : Version.fromNumeric n = .error e) : e = .InvalidCidVersion := by
  unfold Version.fromNumeric at h
  split at h <;> simp_all

theorem codec_fromNumeric_error (n : Nat) (e : Error)
    (h : Codec.fromNumeric n = .error e) : e = .UnknownCodec := by
  unfold Codec.fromNumeric at h
  split at h <;> simp_all

theorem new_v0_ne_tooShort (h : Multihash) :
    Cid.new_v0 h ≠ .error .InputTooShort := by
  rw [Cid.new_v0]
  split <;> simp

theorem new_ne_tooShort (v : Version) (codec : Codec) (h : Multihash) :
    Cid.new v codec h ≠ .error .InputTooShort := by
  cases v with
  | V0 =>
    rw [Cid.new]
    split
    · simp
    · exact new_v0_ne_tooShort h
  | V1 => rw [Cid.new]; simp

/-- Binary decoding never reports the text-only "input too short" error. -/
theorem tryFromBytes_ne_tooShort (bs : List Nat) :
    Cid.tryFromBytes bs ≠ .error .InputTooShort := by
  rw [Cid.tryFromBytes]
  split
  · match hmh : mhDecode bs with
    | some hash => simp only; exact new_v0_ne_tooShort hash
    | none => simp
  · match hv : varintDec bs with
    | none => simp
    | some (rawVersion, rest1) =>
      simp only
      match hc : varintDec rest1 with
      | none => simp
      | some (rawCodec, rest2) =>
        simp only
        match hver : Version.fromNumeric rawVersion with
        | .error e =>
          simp only
          have := version_fromNumeric_error _ _ hver
          simp [this]
        | .ok version =>
          simp only
          match hcodec : Codec.fromNumeric rawCodec with
          | .error e =>
            simp only
            have := codec_fromNumeric_error _ _ hcodec
            simp [this]
          | .ok codec =>
            simp only
            match hmh : mhDecode rest2 with
            | some hash => simp only; exact new_ne_tooShort version codec hash
            | none => simp

/-- The pipeline after stripping reports "input too short" exactly on
byte lengths below 2. -/
theorem parseStripped_tooShort_iff (hash : List Char) :
    Cid.parseStripped hash = .error .InputTooShort ↔ strLen hash < 2 := by
  constructor
  · intro h
    by_contra hlen
    rw [Cid.parseStripped, if_neg hlen] at h
    revert h
    match hmb : (if Version.is_v0_str hash then multibaseDecode ('z' :: hash)
        else multibaseDecode hash) with
    | some bytes => simp only; exact tryFromBytes_ne_tooShort bytes
    | none => simp
  · intro h
    rw [Cid.parseStripped, if_pos h]

instance {ε α : Type} [DecidableEq ε] [DecidableEq α] : DecidableEq (Except ε α) := fun a b =>
  match a, b with
  | .error e1, .error e2 => decidable_of_iff (e1 = e2) (by simp)
  | .error _, .ok _ => isFalse (by simp)
  | .ok _, .error _ => isFalse (by simp)
  | .ok a1, .ok a2 => decidable_of_iff (a1 = a2) (by simp)

/-! ## Claims -/

/-- C1: For every valid identifier (version Current with any table codec
and digest, or version Legacy with the DagProtobuf codec and a Sha2-256
digest), decoding the identifier's binary form yields the identifier
back: `Cid::try_from(cid.to_bytes()) = Ok(cid)`. -/
theorem claim_C1_bytes_roundtrip (c : Cid) (hv : c.Valid) :
    Cid.tryFromBytes c.toBytes = .ok c :=
  cid_bytes_roundtrip c hv

theorem claim_C1_witness :
    Cid.Valid ⟨.V1, .DagCBOR, ⟨0x13, List.replicate 64 7⟩⟩ ∧
      Cid.tryFromBytes (Cid.toBytes ⟨.V1, .DagCBOR, ⟨0x13, List.replicate 64 7⟩⟩) =
        .ok ⟨.V1, .DagCBOR, ⟨0x13, List.replicate 64 7⟩⟩ :=
  ⟨by decide, claim_C1_bytes_roundtrip _ (by decide)⟩

/-- C2: For every valid identifier, decoding the identifier's text
rendering yields the identifier back, for both the Legacy and the Current
version; and a Legacy identifier's text rendering is exactly 46
characters. -/
theorem claim_C2_text_roundtrip (c : Cid) (hv : c.Valid) :
    Cid.tryFromText c.toText = .ok c ∧ (c.version = .V0 → c.toText.length = 46) := by
  refine ⟨(cid_text_roundtrip c hv).1, ?_⟩
  intro hver
  obtain ⟨hmh, hv0⟩ := hv
  obtain ⟨hcodec, hcode⟩ := hv0 hver
  have htext : c.toText = base58Encode c.hash.toBytes := by
    rw [Cid.toText, hver]
    rfl
  rw [htext]
  exact (v0_string_facts c.hash hmh hcode).2.2

theorem claim_C2_witness :
    Cid.Valid ⟨.V0, .DagProtobuf, ⟨0x12, List.replicate 32 9⟩⟩ ∧
      (Cid.tryFromText (Cid.toText ⟨.V0, .DagProtobuf, ⟨0x12, List.replicate 32 9⟩⟩) =
          .ok ⟨.V0, .DagProtobuf, ⟨0x12, List.replicate 32 9⟩⟩ ∧
        (Cid.version ⟨.V0, .DagProtobuf, ⟨0x12, List.replicate 32 9⟩⟩ = .V0 →
          (Cid.toText ⟨.V0, .DagProtobuf, ⟨0x12, List.replicate 32 9⟩⟩).length = 46)) :=
  ⟨by decide, claim_C2_text_roundtrip _ (by decide)⟩

/-- C3: `to_bytes` returns exactly: for version Legacy, the digest's
self-describing byte form with no prefix; for version Current, the varint
encoding of the numeric version (1), then the varint encoding of the
numeric codec, then the digest's self-describing byte form. -/
theorem claim_C3_to_bytes_layout (c : Cid) :
    c.toBytes = (match c.version with
      | .V0 => c.hash.toBytes
      | .V1 => varintEnc 1 ++ varintEnc c.codec.toNumeric ++ c.hash.toBytes) := by
  cases hver : c.version with
  | V0 => rw [Cid.toBytes, hver]; rfl
  | V1 => rw [Cid.toBytes, hver, Cid.to_bytes_v1, hver]; rfl

/-- C4: `Cid::new(version, codec, digest)` returns the "invalid legacy
codec" error when version = Legacy and codec ≠ DagProtobuf; the "invalid
legacy digest" error when version = Legacy, codec = DagProtobuf and the
digest algorithm is not Sha2-256; succeeds otherwise; and with
version = Current it always succeeds (`new_v1` cannot fail). -/
theorem claim_C4_new_validation (codec : Codec) (h : Multihash) :
    Cid.new .V0 codec h =
      (if codec = .DagProtobuf then
        (if h.code = sha2_256Code then .ok ⟨.V0, .DagProtobuf, h⟩
         else .error .InvalidCidV0Multihash)
       else .error .InvalidCidV0Codec) ∧
    Cid.new .V1 codec h = .ok (Cid.new_v1 codec h) := by
  constructor
  · rw [Cid.new]
    by_cases hc : codec = .DagProtobuf
    · subst hc
      rw [if_neg (by simp), if_pos rfl, Cid.new_v0]
      by_cases hcode : h.code = sha2_256Code
      · rw [if_neg (by simp [hcode]), if_pos hcode]
      · rw [if_pos (by simp [hcode]), if_neg hcode]
    · rw [if_pos (by simp [hc]), if_neg hc]
  · rfl

/-- The concrete identifier, its legacy text and the doubled-delimiter
input used to separate first- from last-occurrence stripping. -/
def c5Cid : Cid := ⟨.V0, .DagProtobuf, ⟨0x12, List.replicate 32 0⟩⟩

def c5Tail : List Char := Cid.toText c5Cid

def c5Input : List Char :=
  ['/', 'i', 'p', 'f', 's', '/', 'x', '/', 'i', 'p', 'f', 's', '/'] ++ c5Tail

/-- C5 counterexample: on a text with two occurrences of `/ipfs/`, the
decoder does not use the portion after the last occurrence: the text
`"/ipfs/x/ipfs/<legacy-text>"` fails to decode even though the portion
after the last `/ipfs/` is a valid identifier text. -/
theorem claim_C5_counterexample :
    (afterLastIpfs c5Input).isSome ∧
      Cid.tryFromText c5Input ≠
        Cid.parseStripped ((afterLastIpfs c5Input).getD []) := by
  constructor
  · decide
  · decide

/-- C5 (amended): the decoder considers exactly the portion after the
FIRST occurrence of `"/ipfs/"` as the identifier text. -/
theorem claim_C5_amended_first_occurrence (t r : List Char)
    (h : afterFirstIpfs t = some r) :
    Cid.tryFromText t = Cid.parseStripped r := by
  rw [Cid.tryFromText, strippedText_of_some t r h]

theorem claim_C5_witness :
    afterFirstIpfs ['/', 'i', 'p', 'f', 's', '/', 'a', 'b'] = some ['a', 'b'] ∧
      Cid.tryFromText ['/', 'i', 'p', 'f', 's', '/', 'a', 'b'] =
        Cid.parseStripped ['a', 'b'] :=
  ⟨by decide, claim_C5_amended_first_occurrence _ _ (by decide)⟩

/-- C6 counterexample: the too-short check is on UTF-8 byte length, not
character count: the one-character input `"é"` (two bytes) is not
rejected as too short, against the claim's character-count reading. -/
theorem claim_C6_counterexample :
    ¬ (Cid.tryFromText ['é'] = .error .InputTooShort ↔
        (strippedText ['é']).length < 2) := by
  decide

/-- C6 (amended): text decoding fails with the input-too-short error iff
the remaining text after path-prefix stripping is shorter than 2 UTF-8
bytes; in particular the empty string fails with input-too-short. -/
theorem claim_C6_amended_tooShort_iff (t : List Char) :
    (Cid.tryFromText t = .error .InputTooShort ↔ strLen (strippedText t) < 2) ∧
      Cid.tryFromText [] = .error .InputTooShort := by
  refine ⟨?_, by decide⟩
  rw [Cid.tryFromText]
  exact parseStripped_tooShort_iff (strippedText t)

theorem claim_C6_witness :
    (Cid.tryFromText ['a'] = .error .InputTooShort ↔
        strLen (strippedText ['a']) < 2) ∧
      Cid.tryFromText [] = .error .InputTooShort :=
  claim_C6_amended_tooShort_iff ['a']

/-- C7: the hash projection is the same for structurally equal
identifiers, and is derived solely from the 8 bytes at offsets 1..9 of
the digest's serialized byte form — identifiers differing in version,
codec, digest algorithm or the remaining digest bytes but agreeing on
that window project identically. -/
theorem claim_C7_hashProj_window (c1 c2 : Cid) :
    (c1 = c2 → Cid.hashProj c1 = Cid.hashProj c2) ∧
    (9 ≤ c1.hash.toBytes.length → 9 ≤ c2.hash.toBytes.length →
      (c1.hash.toBytes.drop 1).take 8 = (c2.hash.toBytes.drop 1).take 8 →
      Cid.hashProj c1 = Cid.hashProj c2) := by
  constructor
  · intro h
    rw [h]
  · intro h1 h2 hwin
    simp only [Cid.hashProj, if_pos h1, if_pos h2, hwin]

theorem claim_C7_witness :
    9 ≤ (Multihash.toBytes ⟨0x12, [1, 2, 3, 4, 5, 6, 7] ++ List.replicate 25 0⟩).length ∧
    9 ≤ (Multihash.toBytes ⟨0x16, [1, 2, 3, 4, 5, 6, 7] ++ List.replicate 25 9⟩).length ∧
    Cid.hashProj ⟨.V0, .DagProtobuf, ⟨0x12, [1, 2, 3, 4, 5, 6, 7] ++ List.replicate 25 0⟩⟩ =
      Cid.hashProj ⟨.V1, .Raw, ⟨0x16, [1, 2, 3, 4, 5, 6, 7] ++ List.replicate 25 9⟩⟩ :=
  ⟨by decide, by decide,
    (claim_C7_hashProj_window
      ⟨.V0, .DagProtobuf, ⟨0x12, [1, 2, 3, 4, 5, 6, 7] ++ List.replicate 25 0⟩⟩
      ⟨.V1, .Raw, ⟨0x16, [1, 2, 3, 4, 5, 6, 7] ++ List.replicate 25 9⟩⟩).2
      (by decide) (by decide) (by decide)⟩

/-- C8: the hash projection is well-defined (no panic: the 1..9 slice is
in bounds) for every identifier whose digest's serialized byte form is at
least 9 bytes long. -/
theorem claim_C8_hashProj_defined (c : Cid) (h : 9 ≤ c.hash.toBytes.length) :
    (Cid.hashProj c).isSome := by
  simp [Cid.hashProj, h]

theorem claim_C8_witness :
    9 ≤ (Cid.hash ⟨.V0, .DagProtobuf, ⟨0x12, List.replicate 32 0⟩⟩).toBytes.length ∧
      (Cid.hashProj ⟨.V0, .DagProtobuf, ⟨0x12, List.replicate 32 0⟩⟩).isSome :=
  ⟨by decide, claim_C8_hashProj_defined _ (by decide)⟩

/-- A hashing collaborator obeying the digest contract, used to witness
the prefix claim. -/
def mockHashFn (alg len : Nat) (content : List Nat) : Multihash :=
  ⟨alg, List.replicate len (content.length % 256)⟩

/-- C9: deriving an identifier from a prefix and content and projecting
its prefix yields the prefix back, for any hashing collaborator meeting
the digest contract (the digest carries the requested algorithm and
length); and derivation from identical inputs is deterministic. -/
theorem claim_C9_prefix_roundtrip (hashFn : Nat → Nat → List Nat → Multihash)
    (hcontract : ∀ alg len data,
      (hashFn alg len data).code = alg ∧ (hashFn alg len data).digest.length = len)
    (p : Prefix) (content : List Nat) :
    (Cid.newFromPrefix hashFn p content).toPrefix = p ∧
      Cid.newFromPrefix hashFn p content = Cid.newFromPrefix hashFn p content := by
  obtain ⟨h1, h2⟩ := hcontract p.mhType p.mhLen content
  refine ⟨?_, rfl⟩
  cases p
  simp only [Cid.newFromPrefix, Cid.toPrefix] at h1 h2 ⊢
  rw [h1, h2]

theorem claim_C9_witness :
    (Cid.newFromPrefix mockHashFn ⟨.V1, .DagProtobuf, 0x12, 32⟩ [1, 2, 3]).toPrefix =
        ⟨.V1, .DagProtobuf, 0x12, 32⟩ ∧
      Cid.newFromPrefix mockHashFn ⟨.V1, .DagProtobuf, 0x12, 32⟩ [1, 2, 3] =
        Cid.newFromPrefix mockHashFn ⟨.V1, .DagProtobuf, 0x12, 32⟩ [1, 2, 3] :=
  claim_C9_prefix_roundtrip mockHashFn
    (fun alg len data => ⟨rfl, by simp [mockHashFn]⟩) _ _

/-- The binary input that varint-encodes version numeric 0 and the
DagProtobuf codec numeric before a valid Sha2-256 digest. -/
def c10Input : List Nat := [0, 0x70, 0x12, 0x20] ++ List.replicate 32 0

/-- C10: a byte sequence carrying an explicit version-0/DagProtobuf
prefix before a valid Sha2-256 digest is accepted by binary decoding as a
Legacy identifier, but that identifier re-encodes to the bare digest
bytes, so `to_bytes ∘ decode-from-bytes` is not the identity on all
accepted inputs. -/
theorem claim_C10_lossy_legacy_decode :
    Cid.tryFromBytes c10Input = .ok ⟨.V0, .DagProtobuf, ⟨0x12, List.replicate 32 0⟩⟩ ∧
      Cid.toBytes ⟨.V0, .DagProtobuf, ⟨0x12, List.replicate 32 0⟩⟩ =
        Multihash.toBytes ⟨0x12, List.replicate 32 0⟩ ∧
      Cid.toBytes ⟨.V0, .DagProtobuf, ⟨0x12, List.replicate 32 0⟩⟩ ≠ c10Input := by
  refine ⟨by decide, by decide, by decide⟩
